import Mathlib

/-!
Shallow embedding of the Bolt-backed `table` persistence layer
(`model/table.go` excerpt): `Database.newTable`, `table.getById`,
`table.getAll`, `table.create`, `table.update`, `table.delete`,
`table.truncate`, `idToKey`.

The Bolt store is modelled as a `Bucket`: an association list of
(byte key, byte value) entries kept in ascending byte-lexicographic key
order (Bolt iterates keys in that order), together with the bucket's
uint64 sequence counter (`NextSequence` increments it modulo 2^64 and
returns the new value; a transaction that returns an error is rolled
back, sequence bump included).

Record types are generic in the source (via reflection); the embedding
fixes one representative record shape `Record` with an int64 `id` field
(the field tagged `db:"id"`) and a payload field `name`.  The JSON codec
is an external collaborator; it is modelled as an abstract `Codec`
(encode to bytes / partial decode), with the round-trip law taken as a
hypothesis where a claim needs it, and a concrete `Codec.std` instance
for evaluation.  Shape validation (`validateType`) checks the dynamic
reflection shape of arguments; in the typed embedding arguments are
statically of the correct shape, so those checks are identically
successful and are omitted from the operation bodies.
-/

/-- Byte strings are lists of byte values. -/
abbrev Bytes := List Nat

/-- Decimal digits of a natural number, most significant first, as ASCII
byte values; fuel-based so that it is structurally recursive (the fuel
`n + 1` always suffices). Mirrors `strconv.FormatInt(id, 10)` on
nonnegative input. -/
def natToDigitsAux : Nat → Nat → Bytes
  | 0, _ => []
  | fuel + 1, n => if n < 10 then [48 + n] else natToDigitsAux fuel (n / 10) ++ [48 + n % 10]

/-- Decimal ASCII bytes of a natural number. -/
def natToDigits (n : Nat) : Bytes := natToDigitsAux (n + 1) n

/-- Serializes the given integer ID to a byte array containing its
Base-10 string representation (`idToKey` in the source,
`strconv.FormatInt(id, 10)`): an ASCII minus sign for negative input,
then the decimal digits of the magnitude. -/
def idToKey (id : Int) : Bytes :=
  if id < 0 then 45 :: natToDigits id.natAbs else natToDigits id.natAbs

/-- Byte-lexicographic strict order on byte strings, as `bytes.Compare`
orders Bolt keys: a strict prefix sorts first, otherwise the first
differing byte decides. -/
def keyLt : Bytes → Bytes → Bool
  | [], [] => false
  | [], _ :: _ => true
  | _ :: _, [] => false
  | a :: as, b :: bs => if a < b then true else if b < a then false else keyLt as bs

/-- Lookup of a key in an entry list (Bolt `bucket.Get`; `nil` is `none`). -/
def getEntry (k : Bytes) : List (Bytes × Bytes) → Option Bytes
  | [] => none
  | e :: es => if e.1 = k then some e.2 else getEntry k es

/-- Insertion of a key/value pair into an entry list kept in ascending
byte-lexicographic key order, replacing the value if the key is already
present (Bolt `bucket.Put`). -/
def insertEntry (k v : Bytes) : List (Bytes × Bytes) → List (Bytes × Bytes)
  | [] => [(k, v)]
  | e :: es =>
    if keyLt k e.1 then (k, v) :: e :: es
    else if e.1 = k then (k, v) :: es
    else e :: insertEntry k v es

/-- Removal of a key from an entry list (Bolt `bucket.Delete`). -/
def deleteEntry (k : Bytes) (es : List (Bytes × Bytes)) : List (Bytes × Bytes) :=
  es.filter (fun e => e.1 ≠ k)

/-- One Bolt bucket: its entries in ascending byte-lexicographic key
order, and its uint64 sequence counter. -/
structure Bucket where
  entries : List (Bytes × Bytes)
  seq : Nat
  deriving DecidableEq, Repr

/-- The freshly created, empty bucket (sequence starts at 0, so the
first `NextSequence` yields 1). -/
def emptyBucket : Bucket := { entries := [], seq := 0 }

/-- Interpretation of a uint64 value as an int64 (the `int64(newSequence)`
conversion in `table.create`): two's-complement reinterpretation. -/
def toInt64 (n : Nat) : Int :=
  if n < 2 ^ 63 then (n : Int) else (n : Int) - 2 ^ 64

/-- One record of the registered type: the int64 field tagged `db:"id"`
plus a representative payload field. -/
structure Record where
  id : Int
  name : String
  deriving DecidableEq, Repr

/-- The external serialization codec (`json.Marshal` / `json.Unmarshal`):
encoding is total on records of the registered type, decoding may fail
on foreign bytes. -/
structure Codec where
  encode : Record → Bytes
  decode : Bytes → Option Record

/-- Errors surfaced by the table layer. Each constructor stands for one
`fmt.Errorf` site in the source. -/
inductive TableError where
  | notAStruct : TableError
  | idNotInt64 : TableError
  | noIdField : TableError
  | nonZeroId : Int → TableError
  | zeroId : TableError
  | conflict : Int → TableError
  | notFound : Int → TableError
  | decodeError : TableError
  deriving DecidableEq, Repr

namespace table

/-- Populates the result with the record stored under the given ID, or
`none` if it does not exist (`table.getById`: absence sets the record
pointer to nil and returns no error; a stored value that fails to decode
surfaces the decode error). The read transaction never changes the
bucket. -/
def getById (c : Codec) (b : Bucket) (id : Int) : Option TableError × Option Record :=
  match getEntry (idToKey id) b.entries with
  | some bytes =>
    match c.decode bytes with
    | some r => (none, some r)
    | none => (some TableError.decodeError, none)
  | none => (none, none)

/-- Decodes every entry of the bucket in stored (ascending
byte-lexicographic) order, aborting on the first decode failure
(`bucket.ForEach` body of `table.getAll`). -/
def decodeEntries (c : Codec) : List (Bytes × Bytes) → Option TableError × List Record
  | [] => (none, [])
  | e :: es =>
    match c.decode e.2 with
    | none => (some TableError.decodeError, [])
    | some r =>
      match decodeEntries c es with
      | (err, rs) => (err, r :: rs)

/-- Populates the result with every record in the table, in the bucket's
iteration order (`table.getAll`). -/
def getAll (c : Codec) (b : Bucket) : Option TableError × List Record :=
  decodeEntries c b.entries

/-- Persists the given record as a new row (`table.create`). Requires a
zero ID; inside the write transaction it draws the next sequence value,
assigns it to the record's ID field (mutating the caller's record), and
stores the encoded record unless an entry already occupies that key, in
which case the transaction is rolled back (bucket unchanged) but the
record keeps the assigned ID. Returns (error, bucket after the call,
record after the call). -/
def create (c : Codec) (b : Bucket) (r : Record) : Option TableError × Bucket × Record :=
  if r.id ≠ 0 then (some (TableError.nonZeroId r.id), b, r)
  else
    let newSequence := (b.seq + 1) % 2 ^ 64
    let newId := toInt64 newSequence
    let r' := { r with id := newId }
    let key := idToKey newId
    match getEntry key b.entries with
    | some _ => (some (TableError.conflict newId), b, r')
    | none => (none, { entries := insertEntry key (c.encode r') b.entries, seq := newSequence }, r')

/-- Persists the given record as an update of the existing row
(`table.update`). Requires a nonzero ID and an existing entry at that
key; never inserts. -/
def update (c : Codec) (b : Bucket) (r : Record) : Option TableError × Bucket :=
  if r.id = 0 then (some TableError.zeroId, b)
  else
    let key := idToKey r.id
    match getEntry key b.entries with
    | none => (some (TableError.notFound r.id), b)
    | some _ => (none, { b with entries := insertEntry key (c.encode r) b.entries })

/-- Deletes the record with the given ID (`table.delete`). Requires an
existing entry at that key. -/
def delete (b : Bucket) (id : Int) : Option TableError × Bucket :=
  let key := idToKey id
  match getEntry key b.entries with
  | none => (some (TableError.notFound id), b)
  | some _ => (none, { b with entries := deleteEntry key b.entries })

/-- Deletes all records from the table (`table.truncate`): the bucket is
dropped and recreated, which empties it and resets its sequence counter
to the initial state. -/
def truncate (_b : Bucket) : Option TableError × Bucket :=
  (none, emptyBucket)

end table

/-- Reflection kind of a Go type (`reflect.Kind`), restricted to the
kinds the registration path distinguishes. -/
inductive GoKind where
  | int64Kind : GoKind
  | intKind : GoKind
  | stringKind : GoKind
  | boolKind : GoKind
  | structKind : GoKind
  | ptrKind : GoKind
  | sliceKind : GoKind
  deriving DecidableEq, Repr

/-- One struct field of a candidate record type: its name, its type's
reflection kind, and its `db` struct tag. -/
structure FieldDesc where
  fname : String
  fkind : GoKind
  dbTag : String
  deriving DecidableEq, Repr

/-- Descriptor of a candidate record type, as reflection sees the zero
value passed to `newTable`. -/
structure TypeDesc where
  tkind : GoKind
  tname : String
  tfields : List FieldDesc
  deriving DecidableEq, Repr

/-- The registered binding produced by `newTable`: the bucket name and
the cached index of the ID field. -/
structure TableInfo where
  tblName : String
  idFieldIndex : Nat
  deriving DecidableEq, Repr

/-- The Bolt database: its buckets by name. -/
structure Database where
  dbuckets : List (String × Bucket)
  deriving Repr

/-- Lookup of a bucket by name. -/
def lookupBucket (name : String) : List (String × Bucket) → Option Bucket
  | [] => none
  | e :: es => if e.1 = name then some e.2 else lookupBucket name es

/-- Scan of the struct fields for the first one tagged `db:"id"`
(the loop in `newTable`): no such field is a registration error, and so
is a first match whose type is not int64; otherwise the field's index is
cached. -/
def scanIdField : List FieldDesc → Except TableError Nat
  | [] => Except.error TableError.noIdField
  | f :: fs =>
    if f.dbTag = "id" then
      if f.fkind = GoKind.int64Kind then Except.ok 0 else Except.error TableError.idNotInt64
    else
      (scanIdField fs).map (· + 1)

/-- First field tagged `db:"id"`, if any (the field the scan designates). -/
def firstIdField : List FieldDesc → Option FieldDesc
  | [] => none
  | f :: fs => if f.dbTag = "id" then some f else firstIdField fs

/-- Registers a new table for a struct type (`Database.newTable`):
rejects non-struct types, locates the ID field (failing closed on a
missing or non-int64 ID field before touching storage), then creates the
Bolt bucket if absent. Returns the registration result and the database
after the call. -/
def Database.newTable (db : Database) (rt : TypeDesc) : Except TableError TableInfo × Database :=
  if rt.tkind ≠ GoKind.structKind then (Except.error TableError.notAStruct, db)
  else
    match scanIdField rt.tfields with
    | Except.error e => (Except.error e, db)
    | Except.ok idx =>
      match lookupBucket rt.tname db.dbuckets with
      | some _ => (Except.ok ⟨rt.tname, idx⟩, db)
      | none => (Except.ok ⟨rt.tname, idx⟩, { dbuckets := db.dbuckets ++ [(rt.tname, emptyBucket)] })

/-- One client call against a single table, for whole-history claims. -/
inductive Op where
  | createOp : String → Op
  | updateOp : Record → Op
  | deleteOp : Int → Op
  | truncateOp : Op
  deriving DecidableEq, Repr

/-- Applies one call to the bucket, returning the bucket after the call
and the identifiers assigned by a successful create (empty list
otherwise). -/
def applyOp (c : Codec) (b : Bucket) : Op → Bucket × List Int
  | Op.createOp name =>
    match table.create c b { id := 0, name := name } with
    | (none, b', r') => (b', [r'.id])
    | (some _, b', _) => (b', [])
  | Op.updateOp r => ((table.update c b r).2, [])
  | Op.deleteOp id => ((table.delete b id).2, [])
  | Op.truncateOp => ((table.truncate b).2, [])

/-- Runs a history of calls from a starting bucket, collecting all
identifiers assigned by successful creates in call order. -/
def runOps (c : Codec) (b : Bucket) : List Op → Bucket × List Int
  | [] => (b, [])
  | op :: ops =>
    match applyOp c b op with
    | (b', ids) =>
      match runOps c b' ops with
      | (b'', ids') => (b'', ids ++ ids')

/-- Number of create calls in a history. -/
def countCreates : List Op → Nat
  | [] => 0
  | Op.createOp _ :: ops => countCreates ops + 1
  | _ :: ops => countCreates ops

/-- Reconstruction of a string from byte values (inverse of mapping
`Char.toNat` over the characters). -/
def stringOfNats (bs : Bytes) : String := String.mk (bs.map Char.ofNat)

/-- A concrete lossless codec, standing in for the JSON round trip: a
sign byte, the magnitude of the ID, then the payload characters. -/
def Codec.std : Codec where
  encode r := (if r.id < 0 then 1 else 0) :: r.id.natAbs :: r.name.data.map Char.toNat
  decode bs :=
    match bs with
    | s :: m :: rest =>
      some { id := if s = 1 then -(m : Int) else (m : Int), name := stringOfNats rest }
    | _ => none

/-- Value of a decimal ASCII digit string, read most significant first
(left inverse of `natToDigits`). -/
def fromDigits (ds : Bytes) : Nat := ds.foldl (fun a d => 10 * a + (d - 48)) 0

/-- Strict byte-lexicographic order between the keys of two entries. -/
def entryP (e1 e2 : Bytes × Bytes) : Prop := keyLt e1.1 e2.1 = true

/-- Identifier that the next create on this bucket will assign. -/
def nextId (b : Bucket) : Int := toInt64 ((b.seq + 1) % 2 ^ 64)

/-- Well-formed bucket contents: entries in ascending byte-lexicographic
key order, every stored value the encoding of a record whose decimal ID
key is the entry's key. -/
def wfBucket (c : Codec) (b : Bucket) : Prop :=
  List.Pairwise entryP b.entries ∧
  ∀ e ∈ b.entries, ∃ r : Record, e.2 = c.encode r ∧ e.1 = idToKey r.id

/-- Every key in the bucket is the decimal key of some identifier the
sequence has already handed out (positive and at most the counter). -/
def seqKeys (b : Bucket) : Prop :=
  ∀ e ∈ b.entries, ∃ i : Nat, 1 ≤ i ∧ i ≤ b.seq ∧ e.1 = idToKey (i : Int)

/-- A concrete one-record bucket used as a witness state: identifier 1
is stored under its decimal key and the sequence has advanced once. -/
def bOne : Bucket :=
  { entries := [(idToKey 1, Codec.std.encode { id := 1, name := "a" })], seq := 1 }

/-- A concrete corrupted bucket used as a witness state: an entry
already occupies the key the next sequence value would produce. -/
def bConflict : Bucket := { entries := [(idToKey 1, [0])], seq := 0 }

/-! ### Order lemmas for byte-lexicographic keys -/

theorem keyLt_irrefl (a : Bytes) : keyLt a a = false := by
  induction a with
  | nil => rfl
  | cons x xs ih => simp [keyLt, ih]

theorem keyLt_cons_iff {x y : Nat} {xs ys : Bytes} :
    keyLt (x :: xs) (y :: ys) = true ↔ x < y ∨ (x = y ∧ keyLt xs ys = true) := by
  simp only [keyLt]
  by_cases h1 : x < y
  · simp [h1]
  · by_cases h2 : y < x
    · have hne : x ≠ y := by omega
      simp [h1, h2, hne]
    · have hxy : x = y := by omega
      simp [h1, h2, hxy]

theorem keyLt_trans {a b c : Bytes} (hab : keyLt a b = true) (hbc : keyLt b c = true) :
    keyLt a c = true := by
  induction a generalizing b c with
  | nil =>
    cases c with
    | nil =>
      cases b with
      | nil => exact hab
      | cons y ys => exact absurd hbc (by simp [keyLt])
    | cons z zs => simp [keyLt]
  | cons x xs ih =>
    cases b with
    | nil => exact absurd hab (by simp [keyLt])
    | cons y ys =>
      cases c with
      | nil => exact absurd hbc (by simp [keyLt])
      | cons z zs =>
        rw [keyLt_cons_iff] at hab hbc ⊢
        rcases hab with h1 | ⟨h1, h1'⟩ <;> rcases hbc with h2 | ⟨h2, h2'⟩
        · exact Or.inl (by omega)
        · exact Or.inl (by omega)
        · exact Or.inl (by omega)
        · exact Or.inr ⟨by omega, ih h1' h2'⟩

theorem keyLt_connex {a b : Bytes} (hab : keyLt a b = false) (hne : a ≠ b) :
    keyLt b a = true := by
  induction a generalizing b with
  | nil =>
    cases b with
    | nil => exact absurd rfl hne
    | cons y ys => exact absurd hab (by simp [keyLt])
  | cons x xs ih =>
    cases b with
    | nil => simp [keyLt]
    | cons y ys =>
      have hnot : ¬(x < y ∨ (x = y ∧ keyLt xs ys = true)) := by
        rw [← keyLt_cons_iff]
        simp [hab]
      rw [keyLt_cons_iff]
      by_cases hxy : x = y
      · subst hxy
        have htail : keyLt xs ys = false := by
          rcases Bool.eq_false_or_eq_true (keyLt xs ys) with h | h
          · exact absurd (Or.inr ⟨rfl, h⟩) hnot
          · exact h
        have hnetail : xs ≠ ys := by
          intro hcon
          exact hne (by rw [hcon])
        exact Or.inr ⟨rfl, ih htail hnetail⟩
      · have hlt : ¬ x < y := fun hc => hnot (Or.inl hc)
        exact Or.inl (by omega)

theorem keyLt_ne {a b : Bytes} (h : keyLt a b = true) : a ≠ b := by
  intro hcon
  subst hcon
  rw [keyLt_irrefl] at h
  exact Bool.false_ne_true h

/-! ### Entry-list lemmas -/

theorem mem_insertEntry {k v : Bytes} {es : List (Bytes × Bytes)} {x : Bytes × Bytes}
    (hx : x ∈ insertEntry k v es) : x = (k, v) ∨ x ∈ es := by
  induction es with
  | nil =>
    simp [insertEntry] at hx
    exact Or.inl hx
  | cons e es ih =>
    simp only [insertEntry] at hx
    by_cases h1 : keyLt k e.1 = true
    · simp [h1] at hx
      rcases hx with h | h | h
      · exact Or.inl h
      · exact Or.inr (by simp [h])
      · exact Or.inr (List.mem_cons_of_mem _ h)
    · simp [h1] at hx
      by_cases h2 : e.1 = k
      · simp [h2] at hx
        rcases hx with h | h
        · exact Or.inl h
        · exact Or.inr (List.mem_cons_of_mem _ h)
      · simp [h2] at hx
        rcases hx with h | h
        · exact Or.inr (by simp [h])
        · rcases ih h with h' | h'
          · exact Or.inl h'
          · exact Or.inr (List.mem_cons_of_mem _ h')

theorem getEntry_insertEntry_self (k v : Bytes) (es : List (Bytes × Bytes)) :
    getEntry k (insertEntry k v es) = some v := by
  induction es with
  | nil => simp [insertEntry, getEntry]
  | cons e es ih =>
    simp only [insertEntry]
    by_cases h1 : keyLt k e.1 = true
    · simp [h1, getEntry]
    · simp only [h1, if_false]
      by_cases h2 : e.1 = k
      · simp [h2, getEntry]
      · simp [h2, getEntry, ih]

theorem getEntry_eq_none {k : Bytes} {es : List (Bytes × Bytes)}
    (h : ∀ e ∈ es, e.1 ≠ k) : getEntry k es = none := by
  induction es with
  | nil => rfl
  | cons e es ih =>
    simp only [getEntry]
    rw [if_neg (h e (List.mem_cons_self e es))]
    exact ih (fun e' he' => h e' (List.mem_cons_of_mem _ he'))

theorem getEntry_some_mem {k v : Bytes} {es : List (Bytes × Bytes)}
    (h : getEntry k es = some v) : (k, v) ∈ es := by
  induction es with
  | nil => simp [getEntry] at h
  | cons e es ih =>
    simp only [getEntry] at h
    by_cases h1 : e.1 = k
    · rw [if_pos h1] at h
      have hv : e.2 = v := by injection h
      have hkv : (k, v) = e := by rw [← h1, ← hv]
      rw [hkv]
      exact List.mem_cons_self e es
    · rw [if_neg h1] at h
      exact List.mem_cons_of_mem _ (ih h)

theorem mem_deleteEntry {k : Bytes} {es : List (Bytes × Bytes)} {x : Bytes × Bytes}
    (hx : x ∈ deleteEntry k es) : x ∈ es :=
  List.mem_of_mem_filter hx

theorem getEntry_deleteEntry_self (k : Bytes) (es : List (Bytes × Bytes)) :
    getEntry k (deleteEntry k es) = none := by
  refine getEntry_eq_none ?_
  intro e he
  have := List.of_mem_filter he
  simpa using this

theorem pairwise_insertEntry {k v : Bytes} {es : List (Bytes × Bytes)}
    (h : List.Pairwise entryP es) : List.Pairwise entryP (insertEntry k v es) := by
  induction es with
  | nil => simp [insertEntry]
  | cons e es ih =>
    rcases List.pairwise_cons.mp h with ⟨hhead, htail⟩
    simp only [insertEntry]
    by_cases h1 : keyLt k e.1 = true
    · rw [if_pos h1]
      refine List.pairwise_cons.mpr ⟨?_, h⟩
      intro x hx
      rcases List.mem_cons.mp hx with rfl | hx
      · exact h1
      · exact keyLt_trans h1 (hhead x hx)
    · rw [if_neg h1]
      by_cases h2 : e.1 = k
      · rw [if_pos h2]
        refine List.pairwise_cons.mpr ⟨?_, htail⟩
        intro x hx
        have := hhead x hx
        unfold entryP at this ⊢
        rwa [← h2]
      · rw [if_neg h2]
        refine List.pairwise_cons.mpr ⟨?_, ih htail⟩
        intro x hx
        rcases mem_insertEntry hx with h' | h'
        · subst h'
          exact keyLt_connex (Bool.eq_false_iff.mpr h1) (fun hc => h2 hc.symm)
        · exact hhead x h'

theorem pairwise_deleteEntry {k : Bytes} {es : List (Bytes × Bytes)}
    (h : List.Pairwise entryP es) : List.Pairwise entryP (deleteEntry k es) := by
  unfold deleteEntry
  exact List.Pairwise.sublist (List.filter_sublist es) h

/-! ### Decimal key lemmas -/

theorem natToDigitsAux_fuel {f1 f2 n : Nat} (h1 : n < f1) (h2 : n < f2) :
    natToDigitsAux f1 n = natToDigitsAux f2 n := by
  induction f1 generalizing f2 n with
  | zero => omega
  | succ g ih =>
    cases f2 with
    | zero => omega
    | succ h =>
      simp only [natToDigitsAux]
      by_cases hn : n < 10
      · simp [hn]
      · have hd : n / 10 < n := Nat.div_lt_self (by omega) (by omega)
        rw [if_neg hn, if_neg hn, @ih h (n / 10) (by omega) (by omega)]

theorem natToDigits_eq (n : Nat) :
    natToDigits n = if n < 10 then [48 + n] else natToDigits (n / 10) ++ [48 + n % 10] := by
  unfold natToDigits
  by_cases hn : n < 10
  · simp [natToDigitsAux, hn]
  · have hd : n / 10 < n := Nat.div_lt_self (by omega) (by omega)
    rw [show natToDigitsAux (n + 1) n
        = if n < 10 then [48 + n] else natToDigitsAux n (n / 10) ++ [48 + n % 10] from rfl]
    rw [if_neg hn, if_neg hn,
      @natToDigitsAux_fuel n (n / 10 + 1) (n / 10) (by omega) (by omega)]

theorem fromDigits_natToDigits (n : Nat) : fromDigits (natToDigits n) = n := by
  induction n using Nat.strong_induction_on with
  | _ n ih =>
    rw [natToDigits_eq]
    by_cases hn : n < 10
    · simp [hn, fromDigits]
    · have hd : n / 10 < n := Nat.div_lt_self (by omega) (by omega)
      rw [if_neg hn]
      unfold fromDigits
      rw [List.foldl_append]
      have := ih (n / 10) hd
      unfold fromDigits at this
      rw [this]
      simp only [List.foldl_cons, List.foldl_nil]
      omega

theorem natToDigits_inj {m n : Nat} (h : natToDigits m = natToDigits n) : m = n := by
  have hm := fromDigits_natToDigits m
  have hn := fromDigits_natToDigits n
  rw [← hm, ← hn, h]

theorem idToKey_ofNat (n : Nat) : idToKey (n : Int) = natToDigits n := by
  unfold idToKey
  rw [if_neg (by omega)]
  rw [Int.natAbs_ofNat]

theorem idToKey_ofNat_inj {m n : Nat} (h : idToKey (m : Int) = idToKey (n : Int)) : m = n :=
  natToDigits_inj (by rw [← idToKey_ofNat, ← idToKey_ofNat, h])

/-! ### Registration lemmas -/

theorem scanIdField_noId {fs : List FieldDesc} (h : ∀ f ∈ fs, f.dbTag ≠ "id") :
    scanIdField fs = Except.error TableError.noIdField := by
  induction fs with
  | nil => rfl
  | cons f fs ih =>
    simp only [scanIdField]
    rw [if_neg (h f (List.mem_cons_self f fs))]
    rw [ih (fun f' hf' => h f' (List.mem_cons_of_mem _ hf'))]
    rfl

theorem scanIdField_badId {fs : List FieldDesc} {f : FieldDesc}
    (hfind : firstIdField fs = some f) (hkind : f.fkind ≠ GoKind.int64Kind) :
    scanIdField fs = Except.error TableError.idNotInt64 := by
  induction fs with
  | nil => simp [firstIdField] at hfind
  | cons g fs ih =>
    simp only [firstIdField] at hfind
    simp only [scanIdField]
    by_cases h1 : g.dbTag = "id"
    · rw [if_pos h1] at hfind
      rw [if_pos h1]
      have : g = f := by injection hfind
      subst this
      rw [if_neg hkind]
    · rw [if_neg h1] at hfind
      rw [if_neg h1, ih hfind]
      rfl

/-! ### Operation characterizations -/

theorem create_nonZero {c : Codec} {b : Bucket} {r : Record} (h0 : r.id ≠ 0) :
    table.create c b r = (some (TableError.nonZeroId r.id), b, r) := by
  unfold table.create
  rw [if_pos h0]

theorem create_conflict {c : Codec} {b : Bucket} {r : Record} {v : Bytes} (h0 : r.id = 0)
    (hg : getEntry (idToKey (nextId b)) b.entries = some v) :
    table.create c b r = (some (TableError.conflict (nextId b)), b, { r with id := nextId b }) := by
  unfold table.create
  rw [if_neg (by simp [h0])]
  unfold nextId at hg
  simp only [hg]
  rfl

theorem create_success {c : Codec} {b : Bucket} {r : Record} (h0 : r.id = 0)
    (hg : getEntry (idToKey (nextId b)) b.entries = none) :
    table.create c b r =
      (none,
       { entries := insertEntry (idToKey (nextId b)) (c.encode { r with id := nextId b }) b.entries,
         seq := (b.seq + 1) % 2 ^ 64 },
       { r with id := nextId b }) := by
  unfold table.create
  rw [if_neg (by simp [h0])]
  unfold nextId at hg ⊢
  simp only [hg]

theorem update_zero {c : Codec} {b : Bucket} {r : Record} (h0 : r.id = 0) :
    table.update c b r = (some TableError.zeroId, b) := by
  unfold table.update
  rw [if_pos h0]

theorem update_notFound {c : Codec} {b : Bucket} {r : Record} (h0 : r.id ≠ 0)
    (hg : getEntry (idToKey r.id) b.entries = none) :
    table.update c b r = (some (TableError.notFound r.id), b) := by
  unfold table.update
  rw [if_neg h0]
  simp only [hg]

theorem update_success {c : Codec} {b : Bucket} {r : Record} {v : Bytes} (h0 : r.id ≠ 0)
    (hg : getEntry (idToKey r.id) b.entries = some v) :
    table.update c b r =
      (none, { b with entries := insertEntry (idToKey r.id) (c.encode r) b.entries }) := by
  unfold table.update
  rw [if_neg h0]
  simp only [hg]

theorem delete_notFound {b : Bucket} {id : Int}
    (hg : getEntry (idToKey id) b.entries = none) :
    table.delete b id = (some (TableError.notFound id), b) := by
  unfold table.delete
  simp only [hg]

theorem delete_success {b : Bucket} {id : Int} {v : Bytes}
    (hg : getEntry (idToKey id) b.entries = some v) :
    table.delete b id = (none, { b with entries := deleteEntry (idToKey id) b.entries }) := by
  unfold table.delete
  simp only [hg]

theorem getById_absent {c : Codec} {b : Bucket} {id : Int}
    (hg : getEntry (idToKey id) b.entries = none) :
    table.getById c b id = (none, none) := by
  unfold table.getById
  simp only [hg]

/-! ### Bucket well-formedness: sorted entries holding encoded records -/

theorem wfBucket_empty (c : Codec) : wfBucket c emptyBucket :=
  ⟨List.Pairwise.nil, fun e he => absurd he (List.not_mem_nil e)⟩

theorem wfBucket_put {c : Codec} {b : Bucket} (h : wfBucket c b) (r : Record) (s : Nat) :
    wfBucket c { entries := insertEntry (idToKey r.id) (c.encode r) b.entries, seq := s } := by
  constructor
  · exact pairwise_insertEntry h.1
  · intro e he
    rcases mem_insertEntry he with rfl | he'
    · exact ⟨r, rfl, rfl⟩
    · exact h.2 e he'

theorem wfBucket_del {c : Codec} {b : Bucket} (h : wfBucket c b) (k : Bytes) (s : Nat) :
    wfBucket c { entries := deleteEntry k b.entries, seq := s } :=
  ⟨pairwise_deleteEntry h.1, fun e he => h.2 e (mem_deleteEntry he)⟩

theorem wfBucket_applyOp (c : Codec) (b : Bucket) (op : Op) (h : wfBucket c b) :
    wfBucket c (applyOp c b op).1 := by
  cases op with
  | createOp name =>
    simp only [applyOp]
    cases hg : getEntry (idToKey (nextId b)) b.entries with
    | some v =>
      rw [@create_conflict c b { id := 0, name := name } v rfl hg]
      exact h
    | none =>
      rw [@create_success c b { id := 0, name := name } rfl hg]
      exact wfBucket_put h { id := nextId b, name := name } _
  | updateOp r =>
    simp only [applyOp]
    by_cases h0 : r.id = 0
    · rw [update_zero h0]
      exact h
    · cases hg : getEntry (idToKey r.id) b.entries with
      | none =>
        rw [update_notFound h0 hg]
        exact h
      | some v =>
        rw [update_success h0 hg]
        exact wfBucket_put h r b.seq
  | deleteOp id =>
    simp only [applyOp]
    cases hg : getEntry (idToKey id) b.entries with
    | none =>
      rw [delete_notFound hg]
      exact h
    | some v =>
      rw [delete_success hg]
      exact wfBucket_del h (idToKey id) b.seq
  | truncateOp =>
    exact wfBucket_empty c

theorem wfBucket_runOps (c : Codec) (ops : List Op) :
    ∀ b : Bucket, wfBucket c b → wfBucket c (runOps c b ops).1 := by
  induction ops with
  | nil => exact fun b h => h
  | cons op ops ih =>
    intro b h
    unfold runOps
    have h1 := wfBucket_applyOp c b op h
    have h2 := ih (applyOp c b op).1 h1
    cases happ : applyOp c b op with
    | mk b' ids =>
      rw [happ] at h2
      cases hrun : runOps c b' ops with
      | mk b'' ids' =>
        rw [hrun] at h2
        simpa [happ, hrun] using h2

/-! ### The sequence invariant over call histories -/

theorem seqKeys_empty : seqKeys emptyBucket :=
  fun e he => absurd he (List.not_mem_nil e)

theorem nextKey_fresh {b : Bucket} (hs : seqKeys b) (hlt : b.seq + 1 < 2 ^ 63) :
    getEntry (idToKey (nextId b)) b.entries = none := by
  apply getEntry_eq_none
  intro e he hcon
  obtain ⟨i, h1, h2, h3⟩ := hs e he
  have hmod : (b.seq + 1) % 2 ^ 64 = b.seq + 1 := Nat.mod_eq_of_lt (by omega)
  have hnext : nextId b = ((b.seq + 1 : Nat) : Int) := by
    unfold nextId toInt64
    rw [hmod, if_pos hlt]
  rw [h3, hnext] at hcon
  have := idToKey_ofNat_inj hcon
  omega

theorem create_success_small {c : Codec} {b : Bucket} {r : Record} (h0 : r.id = 0)
    (hs : seqKeys b) (hlt : b.seq + 1 < 2 ^ 63) :
    table.create c b r =
      (none,
       { entries := insertEntry (idToKey ((b.seq + 1 : Nat) : Int))
           (c.encode { r with id := ((b.seq + 1 : Nat) : Int) }) b.entries,
         seq := b.seq + 1 },
       { r with id := ((b.seq + 1 : Nat) : Int) }) := by
  have hmod : (b.seq + 1) % 2 ^ 64 = b.seq + 1 := Nat.mod_eq_of_lt (by omega)
  have hnext : nextId b = ((b.seq + 1 : Nat) : Int) := by
    unfold nextId toInt64
    rw [hmod, if_pos hlt]
  rw [create_success h0 (nextKey_fresh hs hlt), hnext, hmod]

theorem seqKeys_create {b : Bucket} (hs : seqKeys b) (v : Bytes) :
    seqKeys { entries := insertEntry (idToKey ((b.seq + 1 : Nat) : Int)) v b.entries,
              seq := b.seq + 1 } := by
  intro e he
  rcases mem_insertEntry he with rfl | he'
  · refine ⟨b.seq + 1, by omega, ?_, rfl⟩
    show b.seq + 1 ≤ b.seq + 1
    omega
  · obtain ⟨i, h1, h2, h3⟩ := hs e he'
    refine ⟨i, h1, ?_, h3⟩
    show i ≤ b.seq + 1
    omega

theorem seqKeys_update {b : Bucket} (hs : seqKeys b) {r : Record} {v : Bytes}
    (hg : getEntry (idToKey r.id) b.entries = some v) (w : Bytes) :
    seqKeys { b with entries := insertEntry (idToKey r.id) w b.entries } := by
  intro e he
  rcases mem_insertEntry he with rfl | he'
  · obtain ⟨i, h1, h2, h3⟩ := hs _ (getEntry_some_mem hg)
    exact ⟨i, h1, h2, h3⟩
  · exact hs e he'

theorem seqKeys_delete {b : Bucket} (hs : seqKeys b) (k : Bytes) :
    seqKeys { b with entries := deleteEntry k b.entries } :=
  fun e he => hs e (mem_deleteEntry he)

theorem runOps_cons (c : Codec) (b : Bucket) (op : Op) (ops : List Op) :
    runOps c b (op :: ops) =
      ((runOps c (applyOp c b op).1 ops).1,
       (applyOp c b op).2 ++ (runOps c (applyOp c b op).1 ops).2) := by
  cases happ : applyOp c b op with
  | mk b' ids =>
    cases hrun : runOps c b' ops with
    | mk b'' ids' => simp only [runOps, happ, hrun]

theorem applyOp_update_spec (c : Codec) (b : Bucket) (r : Record) (hs : seqKeys b) :
    seqKeys (applyOp c b (Op.updateOp r)).1 ∧ (applyOp c b (Op.updateOp r)).1.seq = b.seq ∧
    (applyOp c b (Op.updateOp r)).2 = [] := by
  simp only [applyOp]
  by_cases h0 : r.id = 0
  · rw [update_zero h0]
    refine ⟨hs, ?_, ?_⟩ <;> trivial
  · cases hg : getEntry (idToKey r.id) b.entries with
    | none =>
      rw [update_notFound h0 hg]
      refine ⟨hs, ?_, ?_⟩ <;> trivial
    | some v =>
      rw [update_success h0 hg]
      refine ⟨seqKeys_update hs hg _, ?_, ?_⟩ <;> trivial

theorem applyOp_delete_spec (c : Codec) (b : Bucket) (id : Int) (hs : seqKeys b) :
    seqKeys (applyOp c b (Op.deleteOp id)).1 ∧ (applyOp c b (Op.deleteOp id)).1.seq = b.seq ∧
    (applyOp c b (Op.deleteOp id)).2 = [] := by
  simp only [applyOp]
  cases hg : getEntry (idToKey id) b.entries with
  | none =>
    rw [delete_notFound hg]
    refine ⟨hs, ?_, ?_⟩ <;> trivial
  | some v =>
    rw [delete_success hg]
    refine ⟨seqKeys_delete hs _, ?_, ?_⟩ <;> trivial

theorem runOps_spec (c : Codec) (ops : List Op) :
    ∀ b : Bucket, seqKeys b → Op.truncateOp ∉ ops →
      b.seq + countCreates ops < 2 ^ 63 →
      seqKeys (runOps c b ops).1 ∧
      (runOps c b ops).1.seq = b.seq + countCreates ops ∧
      (runOps c b ops).2 = (List.range' (b.seq + 1) (countCreates ops)).map (Nat.cast : Nat → Int) := by
  induction ops with
  | nil =>
    intro b hs _ _
    exact ⟨hs, by simp [runOps, countCreates], by simp [runOps, countCreates]⟩
  | cons op ops ih =>
    intro b hs hnt hlt
    have hnt2 : Op.truncateOp ∉ ops := fun hc => hnt (List.mem_cons_of_mem _ hc)
    rw [runOps_cons]
    cases op with
    | createOp name =>
      have hcount : countCreates (Op.createOp name :: ops) = countCreates ops + 1 := by
        simp [countCreates]
      have hlt1 : b.seq + 1 < 2 ^ 63 := by
        rw [hcount] at hlt
        omega
      have happ : applyOp c b (Op.createOp name)
          = ({ entries := insertEntry (idToKey ((b.seq + 1 : Nat) : Int))
                 (c.encode { id := ((b.seq + 1 : Nat) : Int), name := name }) b.entries,
               seq := b.seq + 1 }, [((b.seq + 1 : Nat) : Int)]) := by
        simp only [applyOp]
        rw [@create_success_small c b ⟨0, name⟩ rfl hs hlt1]
      rw [happ]
      have hs' := seqKeys_create hs
          (c.encode { id := ((b.seq + 1 : Nat) : Int), name := name })
      obtain ⟨ih1, ih2, ih3⟩ := ih _ hs' hnt2 (by rw [hcount] at hlt; simp; omega)
      refine ⟨ih1, ?_, ?_⟩
      · rw [ih2, hcount]
        simp
        omega
      · rw [ih3, hcount]
        simp only []
        rw [List.range'_succ (b.seq + 1) (countCreates ops) 1]
        simp
    | updateOp r =>
      have hcount : countCreates (Op.updateOp r :: ops) = countCreates ops := by
        simp [countCreates]
      obtain ⟨k1, k2, k3⟩ := applyOp_update_spec c b r hs
      obtain ⟨ih1, ih2, ih3⟩ := ih _ k1 hnt2 (by rw [k2]; rw [hcount] at hlt; exact hlt)
      refine ⟨ih1, ?_, ?_⟩
      · rw [ih2, k2, hcount]
      · rw [k3, ih3, k2, hcount]
        simp
    | deleteOp id =>
      have hcount : countCreates (Op.deleteOp id :: ops) = countCreates ops := by
        simp [countCreates]
      obtain ⟨k1, k2, k3⟩ := applyOp_delete_spec c b id hs
      obtain ⟨ih1, ih2, ih3⟩ := ih _ k1 hnt2 (by rw [k2]; rw [hcount] at hlt; exact hlt)
      refine ⟨ih1, ?_, ?_⟩
      · rw [ih2, k2, hcount]
      · rw [k3, ih3, k2, hcount]
        simp
    | truncateOp =>
      exact absurd (List.mem_cons_self _ _) hnt

/-! ### Decoding well-formed buckets -/

theorem decodeEntries_spec {c : Codec} (hrt : ∀ r, c.decode (c.encode r) = some r) :
    ∀ es : List (Bytes × Bytes),
      (∀ e ∈ es, ∃ r : Record, e.2 = c.encode r ∧ e.1 = idToKey r.id) →
      (table.decodeEntries c es).1 = none ∧
      (table.decodeEntries c es).2.map (fun r => idToKey r.id) = es.map Prod.fst ∧
      (table.decodeEntries c es).2.map c.encode = es.map Prod.snd := by
  intro es
  induction es with
  | nil => exact fun _ => ⟨rfl, rfl, rfl⟩
  | cons e es ih =>
    intro hv
    obtain ⟨r, hr1, hr2⟩ := hv e (List.mem_cons_self e es)
    obtain ⟨ih1, ih2, ih3⟩ := ih (fun e' he' => hv e' (List.mem_cons_of_mem _ he'))
    have hd : c.decode e.2 = some r := by
      rw [hr1]
      exact hrt r
    simp only [table.decodeEntries, hd]
    cases hde : table.decodeEntries c es with
    | mk err rs =>
      rw [hde] at ih1 ih2 ih3
      simp only [hde]
      refine ⟨ih1, ?_, ?_⟩
      · simp only [List.map_cons]
        rw [ih2, hr2]
      · simp only [List.map_cons]
        rw [ih3, hr1]

/-! ### The concrete codec round trip -/

theorem stringOfNats_map_toNat (s : String) : stringOfNats (s.data.map Char.toNat) = s := by
  unfold stringOfNats
  rw [List.map_map]
  have hmap : List.map (Char.ofNat ∘ Char.toNat) s.data = List.map id s.data :=
    List.map_congr_left (fun ch _ => Char.ofNat_toNat ch)
  rw [hmap, List.map_id]

theorem Codec.std_roundtrip (r : Record) : Codec.std.decode (Codec.std.encode r) = some r := by
  cases r with
  | mk id name =>
    simp only [Codec.std]
    by_cases h : id < 0
    · rw [if_pos h]
      simp only [stringOfNats_map_toNat]
      simp only [if_true]
      have habs : -(id.natAbs : Int) = id := by omega
      rw [habs]
    · rw [if_neg h]
      simp only [stringOfNats_map_toNat]
      have habs : (id.natAbs : Int) = id := by omega
      rw [habs]
      norm_num

/-! ### Full injectivity of idToKey against positive identifiers -/

theorem natToDigits_ne_nil (n : Nat) : natToDigits n ≠ [] := by
  rw [natToDigits_eq]
  by_cases hn : n < 10
  · simp [hn]
  · simp [hn]

theorem natToDigits_head_ge (n : Nat) : ∀ d t, natToDigits n = d :: t → 48 ≤ d := by
  induction n using Nat.strong_induction_on with
  | _ n ih =>
    intro d t h
    rw [natToDigits_eq] at h
    by_cases hn : n < 10
    · rw [if_pos hn] at h
      have : 48 + n = d := by injection h
      omega
    · rw [if_neg hn] at h
      have hd : n / 10 < n := Nat.div_lt_self (by omega) (by omega)
      cases hcons : natToDigits (n / 10) with
      | nil => exact absurd hcons (natToDigits_ne_nil (n / 10))
      | cons d' t' =>
        rw [hcons] at h
        simp only [List.cons_append] at h
        have hdd : d' = d := by injection h
        subst hdd
        exact ih (n / 10) hd d' t' hcons

theorem idToKey_inj_pos (m : Int) (n : Nat) (hn : 1 ≤ n)
    (h : idToKey m = idToKey (n : Int)) : m = (n : Int) := by
  rw [idToKey_ofNat] at h
  unfold idToKey at h
  by_cases hm : m < 0
  · rw [if_pos hm] at h
    cases hcons : natToDigits n with
    | nil => exact absurd hcons (natToDigits_ne_nil n)
    | cons d t =>
      rw [hcons] at h
      have hd : 45 = d := by injection h
      have := natToDigits_head_ge n d t hcons
      omega
  · rw [if_neg hm] at h
    have := natToDigits_inj h
    omega

/-! ### Claim theorems -/

/-- C1: for every record r with identifier 0, at any table state reached
from the fresh bucket by a truncate-free history of calls (creates,
updates, deletes) whose create count leaves the int64 counter in range,
`create(r)` succeeds, assigns a strictly positive identifier strictly
greater than every identifier previously assigned by create in that
namespace, and the identifiers assigned along the history are strictly
increasing, hence never assigned twice even when deletes occur between
the two creates. -/
theorem create_assigns_fresh_positive_monotonic_id (c : Codec) (ops : List Op) (name : String)
    (hnt : Op.truncateOp ∉ ops) (hlt : countCreates ops + 1 < 2 ^ 63) :
    (table.create c (runOps c emptyBucket ops).1 { id := 0, name := name }).1 = none ∧
    0 < (table.create c (runOps c emptyBucket ops).1 { id := 0, name := name }).2.2.id ∧
    (∀ j ∈ (runOps c emptyBucket ops).2,
      j < (table.create c (runOps c emptyBucket ops).1 { id := 0, name := name }).2.2.id) ∧
    List.Pairwise (fun j1 j2 => j1 < j2) (runOps c emptyBucket ops).2 := by
  have h0 : emptyBucket.seq = 0 := rfl
  obtain ⟨hs, hseq, hids⟩ := runOps_spec c ops emptyBucket seqKeys_empty hnt
    (by rw [h0]; omega)
  rw [h0] at hseq hids
  have hlt1 : (runOps c emptyBucket ops).1.seq + 1 < 2 ^ 63 := by
    rw [hseq]
    omega
  rw [@create_success_small c (runOps c emptyBucket ops).1 ⟨0, name⟩ rfl hs hlt1]
  refine ⟨rfl, ?_, ?_, ?_⟩
  · show (0 : Int) < (((runOps c emptyBucket ops).1.seq + 1 : Nat) : Int)
    omega
  · intro j hj
    rw [hids] at hj
    obtain ⟨i, hi, rfl⟩ := List.mem_map.mp hj
    rw [List.mem_range'_1] at hi
    show ((i : Nat) : Int) < (((runOps c emptyBucket ops).1.seq + 1 : Nat) : Int)
    rw [hseq]
    omega
  · rw [hids]
    exact List.Pairwise.map (Nat.cast : Nat → Int)
      (fun a b h => by exact_mod_cast h) (List.pairwise_lt_range' _ _)

/-- C1 witness: a concrete truncate-free history (one create, one
delete) on which the next create succeeds with a fresh larger
identifier. -/
theorem create_assigns_fresh_positive_monotonic_id_witness :
    Op.truncateOp ∉ [Op.createOp "a", Op.deleteOp 1] ∧
    countCreates [Op.createOp "a", Op.deleteOp 1] + 1 < 2 ^ 63 ∧
    ((table.create Codec.std (runOps Codec.std emptyBucket [Op.createOp "a", Op.deleteOp 1]).1
        { id := 0, name := "b" }).1 = none ∧
     0 < (table.create Codec.std (runOps Codec.std emptyBucket [Op.createOp "a", Op.deleteOp 1]).1
        { id := 0, name := "b" }).2.2.id ∧
     (∀ j ∈ (runOps Codec.std emptyBucket [Op.createOp "a", Op.deleteOp 1]).2,
       j < (table.create Codec.std
             (runOps Codec.std emptyBucket [Op.createOp "a", Op.deleteOp 1]).1
             { id := 0, name := "b" }).2.2.id) ∧
     List.Pairwise (fun j1 j2 => j1 < j2)
       (runOps Codec.std emptyBucket [Op.createOp "a", Op.deleteOp 1]).2) :=
  ⟨by decide, by decide,
   create_assigns_fresh_positive_monotonic_id Codec.std [Op.createOp "a", Op.deleteOp 1] "b"
     (by decide) (by decide)⟩

/-- C2 counterexample: the history create, truncate, create hands out
identifier 1 twice in the same namespace within one process lifetime,
because truncate drops and recreates the bucket, resetting its sequence
counter. -/
theorem truncate_reuses_identifier_counterexample :
    (runOps Codec.std emptyBucket [Op.createOp "a", Op.truncateOp, Op.createOp "b"]).2
      = [1, 1] ∧
    ¬ List.Nodup (runOps Codec.std emptyBucket [Op.createOp "a", Op.truncateOp, Op.createOp "b"]).2 := by
  constructor
  · decide
  · decide

/-- C2 (amended): within one process lifetime the per-namespace counter
equals the number of creates and no identifier is handed out twice as
long as no truncate occurs; a truncate, however, resets the namespace's
counter to its initial state, so the next create reassigns identifier 1. -/
theorem seq_advances_no_reuse_without_truncate (c : Codec) (ops : List Op)
    (hnt : Op.truncateOp ∉ ops) (hlt : countCreates ops < 2 ^ 63) :
    (runOps c emptyBucket ops).1.seq = countCreates ops ∧
    List.Nodup (runOps c emptyBucket ops).2 ∧
    (∀ b : Bucket, ∀ name : String,
      (table.create c (table.truncate b).2 { id := 0, name := name }).2.2.id = 1) := by
  have h0 : emptyBucket.seq = 0 := rfl
  obtain ⟨hs, hseq, hids⟩ := runOps_spec c ops emptyBucket seqKeys_empty hnt (by rw [h0]; omega)
  rw [h0] at hseq hids
  refine ⟨by rw [hseq]; omega, ?_, ?_⟩
  · rw [hids]
    exact List.Pairwise.map (Nat.cast : Nat → Int)
      (fun a b h => by intro hc; rw [Nat.cast_inj] at hc; omega)
      (List.pairwise_lt_range' _ _)
  · intro b name
    show (table.create c emptyBucket { id := 0, name := name }).2.2.id = 1
    rw [@create_success_small c emptyBucket ⟨0, name⟩ rfl seqKeys_empty
      (by show 0 + 1 < 2 ^ 63; norm_num)]
    rfl

/-- C2 amended witness: one concrete truncate-free create history. -/
theorem seq_advances_no_reuse_without_truncate_witness :
    Op.truncateOp ∉ [Op.createOp "a"] ∧
    countCreates [Op.createOp "a"] < 2 ^ 63 ∧
    ((runOps Codec.std emptyBucket [Op.createOp "a"]).1.seq = countCreates [Op.createOp "a"] ∧
     List.Nodup (runOps Codec.std emptyBucket [Op.createOp "a"]).2 ∧
     (∀ b : Bucket, ∀ name : String,
       (table.create Codec.std (table.truncate b).2 { id := 0, name := name }).2.2.id = 1)) :=
  ⟨by decide, by decide,
   seq_advances_no_reuse_without_truncate Codec.std [Op.createOp "a"] (by decide) (by decide)⟩

/-- C9: after truncate the table is empty (getAll succeeds with the
empty sequence) and the next create of a zero-identifier record succeeds
and is assigned identifier 1, the sequence's starting value, because
dropping and recreating the bucket resets the counter. -/
theorem truncate_resets_table_and_sequence (c : Codec) (b : Bucket) (name : String) :
    table.getAll c (table.truncate b).2 = (none, []) ∧
    (table.create c (table.truncate b).2 { id := 0, name := name }).1 = none ∧
    (table.create c (table.truncate b).2 { id := 0, name := name }).2.2.id = 1 := by
  refine ⟨rfl, ?_, ?_⟩
  · show (table.create c emptyBucket { id := 0, name := name }).1 = none
    rw [@create_success_small c emptyBucket ⟨0, name⟩ rfl seqKeys_empty
      (by show 0 + 1 < 2 ^ 63; norm_num)]
  · show (table.create c emptyBucket { id := 0, name := name }).2.2.id = 1
    rw [@create_success_small c emptyBucket ⟨0, name⟩ rfl seqKeys_empty
      (by show 0 + 1 < 2 ^ 63; norm_num)]
    rfl

/-- C3: at any state reached from the fresh bucket by a history of
calls, getAll succeeds and returns exactly the stored records in stored
entry order, whose decimal-text keys are in strictly ascending
byte-lexicographic order; concretely, after creating records that
receive identifiers 1 through 10 in sequence, getAll yields them in
identifier order 1,10,2,3,4,5,6,7,8,9. -/
theorem getAll_byte_lexicographic_order (c : Codec)
    (hrt : ∀ r : Record, c.decode (c.encode r) = some r) (ops : List Op) :
    ((table.getAll c (runOps c emptyBucket ops).1).1 = none ∧
     (table.getAll c (runOps c emptyBucket ops).1).2.map (fun r => idToKey r.id)
        = (runOps c emptyBucket ops).1.entries.map Prod.fst ∧
     (table.getAll c (runOps c emptyBucket ops).1).2.map c.encode
        = (runOps c emptyBucket ops).1.entries.map Prod.snd ∧
     List.Pairwise (fun r1 r2 => keyLt (idToKey r1.id) (idToKey r2.id) = true)
        (table.getAll c (runOps c emptyBucket ops).1).2) ∧
    (table.getAll Codec.std
        (runOps Codec.std emptyBucket (List.replicate 10 (Op.createOp "a"))).1).2.map Record.id
      = [1, 10, 2, 3, 4, 5, 6, 7, 8, 9] := by
  have hwf := wfBucket_runOps c ops emptyBucket (wfBucket_empty c)
  obtain ⟨d1, d2, d3⟩ := decodeEntries_spec hrt _ hwf.2
  refine ⟨⟨d1, d2, d3, ?_⟩, by decide⟩
  have hp : List.Pairwise (fun k1 k2 => keyLt k1 k2 = true)
      ((runOps c emptyBucket ops).1.entries.map Prod.fst) :=
    List.Pairwise.map Prod.fst (fun e1 e2 h => h) hwf.1
  rw [← d2] at hp
  exact List.pairwise_map.mp hp

/-- C3 witness: the empty history, under the concrete codec. -/
theorem getAll_byte_lexicographic_order_witness :
    ((table.getAll Codec.std (runOps Codec.std emptyBucket []).1).1 = none ∧
     (table.getAll Codec.std (runOps Codec.std emptyBucket []).1).2.map (fun r => idToKey r.id)
        = (runOps Codec.std emptyBucket []).1.entries.map Prod.fst ∧
     (table.getAll Codec.std (runOps Codec.std emptyBucket []).1).2.map Codec.std.encode
        = (runOps Codec.std emptyBucket []).1.entries.map Prod.snd ∧
     List.Pairwise (fun r1 r2 => keyLt (idToKey r1.id) (idToKey r2.id) = true)
        (table.getAll Codec.std (runOps Codec.std emptyBucket []).1).2) ∧
    (table.getAll Codec.std
        (runOps Codec.std emptyBucket (List.replicate 10 (Op.createOp "a"))).1).2.map Record.id
      = [1, 10, 2, 3, 4, 5, 6, 7, 8, 9] :=
  getAll_byte_lexicographic_order Codec.std Codec.std_roundtrip []

/-- C4: for every record r with identifier 0, when create(r) succeeds,
getById at the identifier it assigned returns no error and a record
equal to r's post-create state, including that assigned identifier,
provided the codec round-trips. -/
theorem getById_after_create_roundtrip (c : Codec)
    (hrt : ∀ r : Record, c.decode (c.encode r) = some r) (b : Bucket) (r : Record)
    (h0 : r.id = 0) (hok : (table.create c b r).1 = none) :
    table.getById c (table.create c b r).2.1 (table.create c b r).2.2.id
      = (none, some (table.create c b r).2.2) := by
  cases hg : getEntry (idToKey (nextId b)) b.entries with
  | some v =>
    rw [@create_conflict c b r v h0 hg] at hok
    simp at hok
  | none =>
    rw [@create_success c b r h0 hg]
    show table.getById c _ ({ r with id := nextId b } : Record).id = _
    simp only [table.getById, getEntry_insertEntry_self, hrt]

/-- C4 witness: creating a concrete record in the empty table and
reading it back by its assigned identifier. -/
theorem getById_after_create_roundtrip_witness :
    ({ id := 0, name := "a" } : Record).id = 0 ∧
    (table.create Codec.std emptyBucket { id := 0, name := "a" }).1 = none ∧
    table.getById Codec.std (table.create Codec.std emptyBucket { id := 0, name := "a" }).2.1
        (table.create Codec.std emptyBucket { id := 0, name := "a" }).2.2.id
      = (none, some (table.create Codec.std emptyBucket { id := 0, name := "a" }).2.2) :=
  ⟨by decide, by decide,
   getById_after_create_roundtrip Codec.std Codec.std_roundtrip emptyBucket
     { id := 0, name := "a" } (by decide) (by decide)⟩

/-- C5: getById never reports absence as an error: at any state reached
from the fresh bucket by a truncate-free history, an identifier that was
never assigned by create yields no error and the nil record; and for any
bucket, after a successful delete of an identifier, getById on that
identifier likewise yields no error and the nil record. -/
theorem getById_absent_is_nil_not_error (c : Codec) (ops : List Op) (id : Int)
    (hnt : Op.truncateOp ∉ ops) (hlt : countCreates ops < 2 ^ 63)
    (hnever : id ∉ (runOps c emptyBucket ops).2) :
    table.getById c (runOps c emptyBucket ops).1 id = (none, none) ∧
    (∀ b : Bucket, getEntry (idToKey id) b.entries ≠ none →
      table.getById c (table.delete b id).2 id = (none, none)) := by
  have h0 : emptyBucket.seq = 0 := rfl
  obtain ⟨hs, hseq, hids⟩ := runOps_spec c ops emptyBucket seqKeys_empty hnt (by rw [h0]; omega)
  rw [h0] at hseq hids
  constructor
  · apply getById_absent
    apply getEntry_eq_none
    intro e he hcon
    obtain ⟨i, h1, h2, h3⟩ := hs e he
    have hik : idToKey id = idToKey (i : Int) := by rw [← hcon, h3]
    have hii : id = (i : Int) := idToKey_inj_pos id i h1 hik
    apply hnever
    rw [hids, hii]
    refine List.mem_map.mpr ⟨i, ?_, rfl⟩
    rw [List.mem_range'_1]
    omega
  · intro b hex
    cases hg : getEntry (idToKey id) b.entries with
    | none => exact absurd hg hex
    | some v =>
      rw [delete_success hg]
      apply getById_absent
      show getEntry (idToKey id) (deleteEntry (idToKey id) b.entries) = none
      exact getEntry_deleteEntry_self _ _

/-- C5 witness: identifier 5 was never assigned by the one-create
history, and deleting identifier 1 from a table holding it makes
getById return the nil record without error. -/
theorem getById_absent_is_nil_not_error_witness :
    Op.truncateOp ∉ [Op.createOp "a"] ∧
    countCreates [Op.createOp "a"] < 2 ^ 63 ∧
    (5 : Int) ∉ (runOps Codec.std emptyBucket [Op.createOp "a"]).2 ∧
    (table.getById Codec.std (runOps Codec.std emptyBucket [Op.createOp "a"]).1 5
        = (none, none) ∧
     (∀ b : Bucket, getEntry (idToKey 5) b.entries ≠ none →
       table.getById Codec.std (table.delete b 5).2 5 = (none, none))) :=
  ⟨by decide, by decide, by decide,
   getById_absent_is_nil_not_error Codec.std [Op.createOp "a"] 5
     (by decide) (by decide) (by decide)⟩

/-- C6: update of a record whose nonzero identifier has no entry in the
bucket fails with the not-found error and returns the bucket exactly as
it was: no upsert. -/
theorem update_nonexistent_fails_unchanged (c : Codec) (b : Bucket) (r : Record)
    (hnz : r.id ≠ 0) (habs : getEntry (idToKey r.id) b.entries = none) :
    table.update c b r = (some (TableError.notFound r.id), b) :=
  update_notFound hnz habs

/-- C6 witness: updating a record with identifier 7 in the empty table. -/
theorem update_nonexistent_fails_unchanged_witness :
    ({ id := 7, name := "x" } : Record).id ≠ 0 ∧
    getEntry (idToKey ({ id := 7, name := "x" } : Record).id) emptyBucket.entries = none ∧
    table.update Codec.std emptyBucket { id := 7, name := "x" }
      = (some (TableError.notFound ({ id := 7, name := "x" } : Record).id), emptyBucket) :=
  ⟨by decide, by decide,
   update_nonexistent_fails_unchanged Codec.std emptyBucket { id := 7, name := "x" }
     (by decide) (by decide)⟩

/-- C7: delete of an identifier with no entry fails with the not-found
error and leaves the bucket unchanged; delete of a stored identifier
succeeds and removes the entry, so that a subsequent getById on that
identifier returns the nil record. -/
theorem delete_notFound_or_removes (c : Codec) (b : Bucket) (id : Int) :
    (getEntry (idToKey id) b.entries = none →
      table.delete b id = (some (TableError.notFound id), b)) ∧
    (getEntry (idToKey id) b.entries ≠ none →
      (table.delete b id).1 = none ∧
      table.getById c (table.delete b id).2 id = (none, none)) := by
  constructor
  · intro habs
    exact delete_notFound habs
  · intro hex
    cases hg : getEntry (idToKey id) b.entries with
    | none => exact absurd hg hex
    | some v =>
      rw [delete_success hg]
      refine ⟨rfl, ?_⟩
      apply getById_absent
      show getEntry (idToKey id) (deleteEntry (idToKey id) b.entries) = none
      exact getEntry_deleteEntry_self _ _

/-- C7 witness: deleting identifier 3 from the empty table fails with
not-found; deleting identifier 1 from a table holding it succeeds and a
subsequent getById returns the nil record. -/
theorem delete_notFound_or_removes_witness :
    table.delete emptyBucket 3 = (some (TableError.notFound 3), emptyBucket) ∧
    ((table.delete bOne 1).1 = none ∧
     table.getById Codec.std (table.delete bOne 1).2 1 = (none, none)) :=
  ⟨(delete_notFound_or_removes Codec.std emptyBucket 3).1 (by decide),
   (delete_notFound_or_removes Codec.std bOne 1).2 (by decide)⟩

/-- C8: registering a record type with no field tagged as the
identifier, or whose designated (first tagged) identifier field is not
an int64, fails with a schema error and leaves the database without any
new bucket. -/
theorem newTable_schema_error_no_bucket (db : Database) (rt : TypeDesc)
    (hbad : (∀ f ∈ rt.tfields, f.dbTag ≠ "id") ∨
            (∃ f, firstIdField rt.tfields = some f ∧ f.fkind ≠ GoKind.int64Kind)) :
    (∃ e, (Database.newTable db rt).1 = Except.error e) ∧ (Database.newTable db rt).2 = db := by
  unfold Database.newTable
  by_cases hk : rt.tkind ≠ GoKind.structKind
  · rw [if_pos hk]
    exact ⟨⟨TableError.notAStruct, rfl⟩, rfl⟩
  · rw [if_neg hk]
    have herr : ∃ e0, scanIdField rt.tfields = Except.error e0 := by
      rcases hbad with h | ⟨f, hf, hfk⟩
      · exact ⟨TableError.noIdField, scanIdField_noId h⟩
      · exact ⟨TableError.idNotInt64, scanIdField_badId hf hfk⟩
    obtain ⟨e0, he0⟩ := herr
    simp only [he0]
    exact ⟨⟨e0, rfl⟩, trivial⟩

/-- C8 witness: a struct type whose only id-tagged field is a string. -/
theorem newTable_schema_error_no_bucket_witness :
    (∃ f, firstIdField [({ fname := "Id", fkind := GoKind.stringKind, dbTag := "id" } : FieldDesc)]
        = some f ∧ f.fkind ≠ GoKind.int64Kind) ∧
    ((∃ e, (Database.newTable { dbuckets := [] }
        { tkind := GoKind.structKind, tname := "T",
          tfields := [{ fname := "Id", fkind := GoKind.stringKind, dbTag := "id" }] }).1
        = Except.error e) ∧
     (Database.newTable { dbuckets := [] }
        { tkind := GoKind.structKind, tname := "T",
          tfields := [{ fname := "Id", fkind := GoKind.stringKind, dbTag := "id" }] }).2
        = { dbuckets := [] }) :=
  ⟨⟨{ fname := "Id", fkind := GoKind.stringKind, dbTag := "id" }, by decide, by decide⟩,
   newTable_schema_error_no_bucket { dbuckets := [] }
     { tkind := GoKind.structKind, tname := "T",
       tfields := [{ fname := "Id", fkind := GoKind.stringKind, dbTag := "id" }] }
     (Or.inr ⟨{ fname := "Id", fkind := GoKind.stringKind, dbTag := "id" }, by decide, by decide⟩)⟩

/-- C10: when create passes the zero-identifier validation but finds the
key for the fresh sequence value already occupied, it fails with the
conflict error and the rolled-back bucket is exactly the pre-call
bucket, yet the returned (caller's) record carries the newly assigned
nonzero identifier. -/
theorem create_conflict_rolls_back_but_mutates_record (c : Codec) (b : Bucket) (r : Record)
    (h0 : r.id = 0) (hseq : b.seq + 1 < 2 ^ 64)
    (hconf : getEntry (idToKey (nextId b)) b.entries ≠ none) :
    (table.create c b r).1 = some (TableError.conflict (nextId b)) ∧
    (table.create c b r).2.1 = b ∧
    (table.create c b r).2.2 = { r with id := nextId b } ∧
    (table.create c b r).2.2.id ≠ 0 := by
  cases hg : getEntry (idToKey (nextId b)) b.entries with
  | none => exact absurd hg hconf
  | some v =>
    rw [@create_conflict c b r v h0 hg]
    refine ⟨rfl, rfl, rfl, ?_⟩
    show nextId b ≠ 0
    unfold nextId toInt64
    rw [Nat.mod_eq_of_lt hseq]
    by_cases hl : b.seq + 1 < 2 ^ 63
    · rw [if_pos hl]
      omega
    · rw [if_neg hl]
      omega

/-- C10 witness: a bucket whose next sequence value is 1 while key "1"
is already occupied. -/
theorem create_conflict_rolls_back_but_mutates_record_witness :
    ({ id := 0, name := "x" } : Record).id = 0 ∧
    bConflict.seq + 1 < 2 ^ 64 ∧
    getEntry (idToKey (nextId bConflict)) bConflict.entries ≠ none ∧
    ((table.create Codec.std bConflict { id := 0, name := "x" }).1
        = some (TableError.conflict (nextId bConflict)) ∧
     (table.create Codec.std bConflict { id := 0, name := "x" }).2.1 = bConflict ∧
     (table.create Codec.std bConflict { id := 0, name := "x" }).2.2
        = { ({ id := 0, name := "x" } : Record) with id := nextId bConflict } ∧
     (table.create Codec.std bConflict { id := 0, name := "x" }).2.2.id ≠ 0) :=
  ⟨by decide, by decide, by decide,
   create_conflict_rolls_back_but_mutates_record Codec.std bConflict { id := 0, name := "x" }
     (by decide) (by decide) (by decide)⟩
